import Mathlib

/-!
Verification of the bounded top-N leaderboard core (`MinHeap` in `src/index.js`).

The JavaScript class `MinHeap` keeps an array `heap` of `{name, score}` objects
and a fixed `maxSize`.  We embed the array as a `List ScoreEntry`, scores as
`Int` (only order matters to the program), out-of-bounds array reads as a
default entry (the program only reads in bounds on the paths it executes),
and each method as a pure function on the `MinHeap` state.  The while loop of
`heapifyUp` and the recursion of `heapifyDown` become well-founded recursions;
structurally recursive fuelled twins (`heapifyUpF`, `heapifyDownF`) are proved
equal to them so that concrete runs compute by `decide`.
-/

/-- A leaderboard entry `{ name, score }` as in the source. -/
structure ScoreEntry where
  name : String
  score : Int
deriving DecidableEq

/-- Array read `heap[i]`, totalised with a default entry for out-of-bounds
indices (the source never reads out of bounds on executed paths). -/
def getE : List ScoreEntry → Nat → ScoreEntry
  | [], _ => ⟨"", 0⟩
  | e :: _, 0 => e
  | _ :: l, n + 1 => getE l n

/-- One step of a stable insertion sort in descending score order, embedding
the stable `Array.prototype.sort((a, b) => b.score - a.score)` of the source:
`e` goes in front of the first element whose key is not larger. -/
def insDescBy {α : Type} (key : α → Int) (e : α) : List α → List α
  | [] => [e]
  | x :: xs => if key e < key x then x :: insDescBy key e xs else e :: x :: xs

/-- Stable sort in descending key order (see `insDescBy`). -/
def sortDescBy {α : Type} (key : α → Int) (l : List α) : List α :=
  l.foldr (insDescBy key) []

/-- Descending sort of entries by score: `[...heap].sort((a,b) => b.score - a.score)`. -/
def sortDesc : List ScoreEntry → List ScoreEntry := sortDescBy ScoreEntry.score

/-- Descending sort of a list of bare scores (used to state top-N retention). -/
def sortIntDesc : List Int → List Int := sortDescBy (fun x => x)

/-- The `MinHeap` state: the entry array and the fixed capacity. -/
structure MinHeap where
  heap : List ScoreEntry
  maxSize : Nat
deriving DecidableEq

namespace MinHeap

/-- `new MinHeap(maxSize)`. -/
def make (maxSize : Nat) : MinHeap := { heap := [], maxSize := maxSize }

/-- `parent(i) = Math.floor((i - 1) / 2)`; the source only calls it with
`i > 0`, where `Nat` truncation agrees with `Math.floor`. -/
def parent (i : Nat) : Nat := (i - 1) / 2

/-- `leftChild(i) = 2 * i + 1`. -/
def leftChild (i : Nat) : Nat := 2 * i + 1

/-- `rightChild(i) = 2 * i + 2`. -/
def rightChild (i : Nat) : Nat := 2 * i + 2

/-- `swap(i, j)`: the destructuring assignment evaluates both old values
first, then writes them back crosswise. -/
def swap (l : List ScoreEntry) (i j : Nat) : List ScoreEntry :=
  (l.set i (getE l j)).set j (getE l i)

/-- The `minIndex` computed by `heapifyDown`: the argmin among position `i`
and its in-bounds children, examining the left then the right child. -/
def minIndex (l : List ScoreEntry) (i : Nat) : Nat :=
  let m1 := if leftChild i < l.length ∧ (getE l (leftChild i)).score < (getE l i).score
    then leftChild i else i
  if rightChild i < l.length ∧ (getE l (rightChild i)).score < (getE l m1).score
    then rightChild i else m1

/-- The while loop of `heapifyUp`: bubble position `i` up while its parent
has a strictly larger score. -/
def heapifyUp (l : List ScoreEntry) (i : Nat) : List ScoreEntry :=
  if h : 0 < i ∧ (getE l i).score < (getE l (parent i)).score then
    heapifyUp (swap l (parent i) i) (parent i)
  else l
termination_by i
decreasing_by
  have h1 := h.1
  simp only [parent]
  omega

/-- The recursion of `heapifyDown`: swap position `i` with the smallest of
its children while a child is strictly smaller. -/
def heapifyDown (l : List ScoreEntry) (i : Nat) : List ScoreEntry :=
  if h : i ≠ minIndex l i then
    heapifyDown (swap l i (minIndex l i)) (minIndex l i)
  else l
termination_by l.length - i
decreasing_by
  simp only [swap, List.length_set]
  simp only [minIndex, leftChild, rightChild] at h ⊢
  split_ifs at h ⊢ <;> omega

/-- Fuelled, structurally recursive twin of `heapifyUp`. -/
def heapifyUpF : Nat → List ScoreEntry → Nat → List ScoreEntry
  | 0, l, _ => l
  | fuel + 1, l, i =>
    if 0 < i ∧ (getE l i).score < (getE l (parent i)).score then
      heapifyUpF fuel (swap l (parent i) i) (parent i)
    else l

/-- Fuelled, structurally recursive twin of `heapifyDown`. -/
def heapifyDownF : Nat → List ScoreEntry → Nat → List ScoreEntry
  | 0, l, _ => l
  | fuel + 1, l, i =>
    if i ≠ minIndex l i then
      heapifyDownF fuel (swap l i (minIndex l i)) (minIndex l i)
    else l

/-- `insert(score)`: under capacity push and sift up; at capacity replace the
root and sift down when the new score is strictly larger, otherwise discard. -/
def insert (s : MinHeap) (e : ScoreEntry) : MinHeap :=
  if s.heap.length < s.maxSize then
    { s with heap := heapifyUp (s.heap ++ [e]) ((s.heap ++ [e]).length - 1) }
  else if (getE s.heap 0).score < e.score then
    { s with heap := heapifyDown (s.heap.set 0 e) 0 }
  else s

/-- `insert` with the fuelled sift functions; proved equal to `insert`. -/
def insertF (s : MinHeap) (e : ScoreEntry) : MinHeap :=
  if s.heap.length < s.maxSize then
    { s with heap := heapifyUpF (s.heap.length + 1) (s.heap ++ [e]) ((s.heap ++ [e]).length - 1) }
  else if (getE s.heap 0).score < e.score then
    { s with heap := heapifyDownF (s.heap.length + 1) (s.heap.set 0 e) 0 }
  else s

/-- `getSortedScores()`: sort a copy of the heap by score descending. -/
def getSortedScores (s : MinHeap) : List ScoreEntry := sortDesc s.heap

/-- `getSortedScores()` as a state transformer: the method sorts the spread
copy `[...this.heap]`, never assigning `this.heap`, so the state component is
returned untouched. -/
def getSortedScoresOp (s : MinHeap) : List ScoreEntry × MinHeap :=
  let copy := s.heap
  (sortDesc copy, s)

/-- The `/clear_leaderboard` handler: `leaderboard.heap = []`. -/
def clear (s : MinHeap) : MinHeap := { s with heap := [] }

end MinHeap

/-- Replaying a list of entries through `insert` in order, as `loadLeaderboard`
does with the persisted JSON array. -/
def insertList (s : MinHeap) (l : List ScoreEntry) : MinHeap :=
  l.foldl MinHeap.insert s

/-- A mutating operation of the store: an insert or a clear. -/
inductive Op where
  | ins (e : ScoreEntry) : Op
  | clr : Op
deriving DecidableEq

/-- Apply one operation. -/
def applyOp (s : MinHeap) : Op → MinHeap
  | .ins e => s.insert e
  | .clr => s.clear

/-- Run a sequence of mutating operations. -/
def runOps (s : MinHeap) (ops : List Op) : MinHeap :=
  ops.foldl applyOp s

/-- The min-heap shape invariant I1, in parent form: every non-root entry has
a score at least its parent's score. -/
def heapProp (l : List ScoreEntry) : Prop :=
  ∀ c, c < l.length → 0 < c → (getE l (MinHeap.parent c)).score ≤ (getE l c).score

instance (l : List ScoreEntry) : Decidable (heapProp l) :=
  decidable_of_iff
    (∀ c, c < l.length → 0 < c →
      (getE l (MinHeap.parent c)).score ≤ (getE l c).score) Iff.rfl

/-- Loop invariant of `heapifyUp` at cursor `i`: the heap property holds at
every non-root position other than `i`, and the value at `i`'s parent is
below everything whose parent is `i`. -/
def upInv (l : List ScoreEntry) (i : Nat) : Prop :=
  (∀ c, c < l.length → 0 < c → c ≠ i →
    (getE l (MinHeap.parent c)).score ≤ (getE l c).score) ∧
  (0 < i → ∀ c, c < l.length → MinHeap.parent c = i →
    (getE l (MinHeap.parent i)).score ≤ (getE l c).score)

/-- Invariant of `heapifyDown` at cursor `i`: the heap property holds on every
edge not leaving `i`, and the value at `i`'s parent is below everything whose
parent is `i`. -/
def downInv (l : List ScoreEntry) (i : Nat) : Prop :=
  (∀ c, c < l.length → 0 < c → MinHeap.parent c ≠ i →
    (getE l (MinHeap.parent c)).score ≤ (getE l c).score) ∧
  (0 < i → ∀ c, c < l.length → MinHeap.parent c = i →
    (getE l (MinHeap.parent i)).score ≤ (getE l c).score)

instance : IsAntisymm Int (fun a b : Int => b ≤ a) :=
  ⟨fun a b h1 h2 => le_antisymm h2 h1⟩

/-- Inductive invariant tying a reachable state to the full insertion history
`ins`: correct capacity, heap shape, size `min capacity totalInserts`, the
heap a sub-multiset of the history, and every discarded entry scoring no more
than every retained one. -/
def goodState (C : Nat) (ins : List ScoreEntry) (s : MinHeap) : Prop :=
  s.maxSize = C ∧
  heapProp s.heap ∧
  s.heap.length = min C ins.length ∧
  (s.heap : Multiset ScoreEntry) ≤ (ins : Multiset ScoreEntry) ∧
  (∀ x ∈ (ins : Multiset ScoreEntry) - (s.heap : Multiset ScoreEntry),
    ∀ y ∈ s.heap, x.score ≤ y.score)

namespace MinHeap

theorem parent_lt {i : Nat} (h : 0 < i) : parent i < i := by
  simp only [parent]; omega

theorem parent_leftChild (i : Nat) : parent (leftChild i) = i := by
  simp only [parent, leftChild]; omega

theorem parent_rightChild (i : Nat) : parent (rightChild i) = i := by
  simp only [parent, rightChild]; omega

theorem child_of_parent {c i : Nat} (hc : 0 < c) (h : parent c = i) :
    c = leftChild i ∨ c = rightChild i := by
  simp only [parent] at h
  simp only [leftChild, rightChild]
  omega

end MinHeap

theorem getE_cons_zero (e : ScoreEntry) (l : List ScoreEntry) : getE (e :: l) 0 = e := rfl

theorem getE_cons_succ (e : ScoreEntry) (l : List ScoreEntry) (n : Nat) :
    getE (e :: l) (n + 1) = getE l n := rfl

theorem getE_append_left {l : List ScoreEntry} {i : Nat} (m : List ScoreEntry)
    (h : i < l.length) : getE (l ++ m) i = getE l i := by
  induction l generalizing i with
  | nil => simp at h
  | cons x xs ih =>
    cases i with
    | zero => rfl
    | succ n => simpa using ih (by simpa using h)

theorem getE_append_length (l : List ScoreEntry) (e : ScoreEntry) :
    getE (l ++ [e]) l.length = e := by
  induction l with
  | nil => rfl
  | cons x xs ih => simpa using ih

theorem getE_set_eq {l : List ScoreEntry} {i : Nat} (a : ScoreEntry)
    (h : i < l.length) : getE (l.set i a) i = a := by
  induction l generalizing i with
  | nil => simp at h
  | cons x xs ih =>
    cases i with
    | zero => rfl
    | succ n => simpa [List.set] using ih (by simpa using h)

theorem getE_set_ne {i j : Nat} (l : List ScoreEntry) (a : ScoreEntry)
    (h : i ≠ j) : getE (l.set i a) j = getE l j := by
  induction l generalizing i j with
  | nil => simp [List.set]
  | cons x xs ih =>
    cases i with
    | zero =>
      cases j with
      | zero => exact absurd rfl h
      | succ n => rfl
    | succ m =>
      cases j with
      | zero => rfl
      | succ n => simpa [List.set] using ih (by omega)

theorem getE_mem {l : List ScoreEntry} {i : Nat} (h : i < l.length) : getE l i ∈ l := by
  induction l generalizing i with
  | nil => simp at h
  | cons x xs ih =>
    cases i with
    | zero => exact List.mem_cons_self x xs
    | succ n => exact List.mem_cons_of_mem x (ih (by simpa using h))

theorem exists_getE_of_mem {l : List ScoreEntry} {y : ScoreEntry} (h : y ∈ l) :
    ∃ i, i < l.length ∧ getE l i = y := by
  induction l with
  | nil => simp at h
  | cons x xs ih =>
    rcases List.mem_cons.mp h with rfl | h'
    · exact ⟨0, by simp, rfl⟩
    · obtain ⟨i, hi, hg⟩ := ih h'
      exact ⟨i + 1, by simpa using hi, hg⟩

namespace MinHeap

theorem swap_length (l : List ScoreEntry) (i j : Nat) :
    (swap l i j).length = l.length := by
  simp [swap]

theorem getE_swap_fst {l : List ScoreEntry} {i j : Nat} (hij : i ≠ j)
    (hi : i < l.length) : getE (swap l i j) i = getE l j := by
  unfold swap
  rw [getE_set_ne _ _ (Ne.symm hij), getE_set_eq _ hi]

theorem getE_swap_snd {l : List ScoreEntry} {i j : Nat}
    (hj : j < l.length) : getE (swap l i j) j = getE l i := by
  unfold swap
  rw [getE_set_eq _ (by simpa using hj)]

theorem getE_swap_other {l : List ScoreEntry} {i j k : Nat} (hki : k ≠ i)
    (hkj : k ≠ j) : getE (swap l i j) k = getE l k := by
  unfold swap
  rw [getE_set_ne _ _ (Ne.symm hkj), getE_set_ne _ _ (Ne.symm hki)]

end MinHeap

theorem getE_cons_set_perm : ∀ (xs : List ScoreEntry) (m : Nat) (x : ScoreEntry),
    m < xs.length → (getE xs m :: xs.set m x).Perm (x :: xs) := by
  intro xs
  induction xs with
  | nil => intro m x h; simp at h
  | cons y ys ih =>
    intro m x h
    cases m with
    | zero => exact List.Perm.swap x y ys
    | succ k =>
      have hk : k < ys.length := by simpa using h
      have p1 : (getE ys k :: y :: ys.set k x).Perm (y :: getE ys k :: ys.set k x) :=
        List.Perm.swap y (getE ys k) (ys.set k x)
      have p2 : (y :: getE ys k :: ys.set k x).Perm (y :: x :: ys) := (ih k x hk).cons y
      have p3 : (y :: x :: ys).Perm (x :: y :: ys) := List.Perm.swap x y ys
      exact (p1.trans p2).trans p3

namespace MinHeap

theorem swap_perm : ∀ (l : List ScoreEntry) (i j : Nat),
    i < l.length → j < l.length → (swap l i j).Perm l := by
  intro l
  induction l with
  | nil => intro i j hi; simp at hi
  | cons x xs ih =>
    intro i j hi hj
    cases i with
    | zero =>
      cases j with
      | zero => simp [swap, getE_cons_zero]
      | succ m =>
        have hm : m < xs.length := by simpa using hj
        have he : swap (x :: xs) 0 (m + 1) = getE xs m :: xs.set m x := rfl
        rw [he]
        exact getE_cons_set_perm xs m x hm
    | succ n =>
      cases j with
      | zero =>
        have hn : n < xs.length := by simpa using hi
        have he : swap (x :: xs) (n + 1) 0 = getE xs n :: xs.set n x := rfl
        rw [he]
        exact getE_cons_set_perm xs n x hn
      | succ m =>
        have hn : n < xs.length := by simpa using hi
        have hm : m < xs.length := by simpa using hj
        have he : swap (x :: xs) (n + 1) (m + 1) = x :: swap xs n m := rfl
        rw [he]
        exact (ih n m hn hm).cons x

end MinHeap

/-- Overwriting position `i` and appending the overwritten value permutes the
list with the new value appended. -/
theorem set_concat_perm : ∀ (l : List ScoreEntry) (i : Nat) (e : ScoreEntry),
    i < l.length → (l.set i e ++ [getE l i]).Perm (l ++ [e]) := by
  intro l
  induction l with
  | nil => intro i e h; simp at h
  | cons x xs ih =>
    intro i e h
    cases i with
    | zero =>
      have p1 : (e :: (xs ++ [x])).Perm (e :: x :: xs) :=
        (List.perm_append_singleton x xs).cons e
      have p2 : (e :: x :: xs).Perm (x :: e :: xs) := List.Perm.swap x e xs
      have p3 : (x :: e :: xs).Perm (x :: (xs ++ [e])) :=
        ((List.perm_append_singleton e xs).symm).cons x
      exact (p1.trans p2).trans p3
    | succ n =>
      have hn : n < xs.length := by simpa using h
      exact (ih n e hn).cons x

namespace MinHeap

theorem minIndex_eq_self {l : List ScoreEntry} {i : Nat} (h : minIndex l i = i) :
    (leftChild i < l.length → (getE l i).score ≤ (getE l (leftChild i)).score) ∧
    (rightChild i < l.length → (getE l i).score ≤ (getE l (rightChild i)).score) := by
  simp only [minIndex] at h
  split_ifs at h with h1 h2 h2
  · exfalso; simp only [leftChild, rightChild] at h; omega
  · exfalso; simp only [leftChild] at h; omega
  · exfalso; simp only [leftChild, rightChild] at h; omega
  · push_neg at h1 h2
    exact ⟨fun hl => h1 hl, fun hr => h2 hr⟩

theorem minIndex_ne_self {l : List ScoreEntry} {i : Nat} (h : minIndex l i ≠ i) :
    i < minIndex l i ∧ minIndex l i < l.length ∧ parent (minIndex l i) = i ∧
    (getE l (minIndex l i)).score < (getE l i).score ∧
    ∀ c, c < l.length → parent c = i → (getE l (minIndex l i)).score ≤ (getE l c).score := by
  simp only [minIndex] at h ⊢
  split_ifs at h ⊢ with h1 h2 h2
  · -- minIndex = rightChild i, via m1 = leftChild i
    refine ⟨by simp only [rightChild]; omega, h2.1, parent_rightChild i,
      lt_trans h2.2 h1.2, ?_⟩
    intro c hc hpc
    by_cases hc0 : c = 0
    · subst hc0
      have hi0 : i = 0 := by simp only [parent] at hpc; omega
      subst hi0
      exact le_of_lt (lt_trans h2.2 h1.2)
    · rcases child_of_parent (Nat.pos_of_ne_zero hc0) hpc with hcl | hcr
      · subst hcl; exact le_of_lt h2.2
      · subst hcr; exact le_refl _
  · -- minIndex = leftChild i
    push_neg at h2
    refine ⟨by simp only [leftChild]; omega, h1.1, parent_leftChild i, h1.2, ?_⟩
    intro c hc hpc
    by_cases hc0 : c = 0
    · subst hc0
      have hi0 : i = 0 := by simp only [parent] at hpc; omega
      subst hi0
      exact le_of_lt h1.2
    · rcases child_of_parent (Nat.pos_of_ne_zero hc0) hpc with hcl | hcr
      · subst hcl; exact le_refl _
      · subst hcr; exact h2 hc
  · -- minIndex = rightChild i, via m1 = i
    push_neg at h1
    refine ⟨by simp only [rightChild]; omega, h2.1, parent_rightChild i, h2.2, ?_⟩
    intro c hc hpc
    by_cases hc0 : c = 0
    · subst hc0
      have hi0 : i = 0 := by simp only [parent] at hpc; omega
      subst hi0
      exact le_of_lt h2.2
    · rcases child_of_parent (Nat.pos_of_ne_zero hc0) hpc with hcl | hcr
      · subst hcl; exact le_of_lt (lt_of_lt_of_le h2.2 (h1 hc))
      · subst hcr; exact le_refl _
  · exact absurd rfl h

theorem heapifyUpF_length : ∀ (fuel : Nat) (l : List ScoreEntry) (i : Nat),
    (heapifyUpF fuel l i).length = l.length := by
  intro fuel
  induction fuel with
  | zero => intro l i; rfl
  | succ n ih =>
    intro l i
    simp only [heapifyUpF]
    split
    · rw [ih, swap_length]
    · rfl

theorem heapifyDownF_length : ∀ (fuel : Nat) (l : List ScoreEntry) (i : Nat),
    (heapifyDownF fuel l i).length = l.length := by
  intro fuel
  induction fuel with
  | zero => intro l i; rfl
  | succ n ih =>
    intro l i
    simp only [heapifyDownF]
    split
    · rw [ih, swap_length]
    · rfl

theorem heapifyUpF_perm : ∀ (fuel : Nat) (l : List ScoreEntry) (i : Nat),
    i < l.length → (heapifyUpF fuel l i).Perm l := by
  intro fuel
  induction fuel with
  | zero => intro l i _; exact List.Perm.refl l
  | succ n ih =>
    intro l i hi
    simp only [heapifyUpF]
    split
    · next hcond =>
      have hp : parent i < i := parent_lt hcond.1
      have hpl : parent i < l.length := lt_trans hp hi
      have h1 : (heapifyUpF n (swap l (parent i) i) (parent i)).Perm (swap l (parent i) i) :=
        ih _ _ (by rw [swap_length]; exact hpl)
      exact h1.trans (swap_perm l (parent i) i hpl hi)
    · exact List.Perm.refl l

theorem heapifyDownF_perm : ∀ (fuel : Nat) (l : List ScoreEntry) (i : Nat),
    (heapifyDownF fuel l i).Perm l := by
  intro fuel
  induction fuel with
  | zero => intro l i; exact List.Perm.refl l
  | succ n ih =>
    intro l i
    simp only [heapifyDownF]
    split
    · next hcond =>
      obtain ⟨him, hml, _, _, _⟩ := minIndex_ne_self (Ne.symm hcond)
      have h1 := ih (swap l i (minIndex l i)) (minIndex l i)
      exact h1.trans (swap_perm l i (minIndex l i) (lt_trans him hml) hml)
    · exact List.Perm.refl l

theorem heapifyUpF_eq : ∀ (fuel : Nat) (l : List ScoreEntry) (i : Nat),
    i < fuel → heapifyUpF fuel l i = heapifyUp l i := by
  intro fuel
  induction fuel with
  | zero => intro l i h; omega
  | succ n ih =>
    intro l i h
    rw [heapifyUp]
    simp only [heapifyUpF]
    split
    · next hcond => exact ih _ _ (by have := parent_lt hcond.1; omega)
    · rfl

theorem heapifyDownF_eq : ∀ (fuel : Nat) (l : List ScoreEntry) (i : Nat),
    l.length - i < fuel → heapifyDownF fuel l i = heapifyDown l i := by
  intro fuel
  induction fuel with
  | zero => intro l i h; omega
  | succ n ih =>
    intro l i h
    rw [heapifyDown]
    simp only [heapifyDownF]
    split
    · next hcond =>
      obtain ⟨him, hml, _, _, _⟩ := minIndex_ne_self (Ne.symm hcond)
      exact ih _ _ (by rw [swap_length]; omega)
    · rfl

theorem heapifyUp_length (l : List ScoreEntry) (i : Nat) :
    (heapifyUp l i).length = l.length := by
  rw [← heapifyUpF_eq (i + 1) l i (by omega)]
  exact heapifyUpF_length _ _ _

theorem heapifyDown_length (l : List ScoreEntry) (i : Nat) :
    (heapifyDown l i).length = l.length := by
  rw [← heapifyDownF_eq (l.length + 1) l i (by omega)]
  exact heapifyDownF_length _ _ _

theorem heapifyUp_perm {l : List ScoreEntry} {i : Nat} (h : i < l.length) :
    (heapifyUp l i).Perm l := by
  rw [← heapifyUpF_eq (i + 1) l i (by omega)]
  exact heapifyUpF_perm _ _ _ h

theorem heapifyDown_perm (l : List ScoreEntry) (i : Nat) :
    (heapifyDown l i).Perm l := by
  rw [← heapifyDownF_eq (l.length + 1) l i (by omega)]
  exact heapifyDownF_perm _ _ _

end MinHeap

namespace MinHeap

theorem heapifyUpF_heapProp : ∀ (fuel : Nat) (l : List ScoreEntry) (i : Nat),
    i < fuel → i < l.length → upInv l i → heapProp (heapifyUpF fuel l i) := by
  intro fuel
  induction fuel with
  | zero => intro l i h; omega
  | succ n ih =>
    intro l i hfuel hil hinv
    simp only [heapifyUpF]
    split
    · next hcond =>
      obtain ⟨hi0, hlt⟩ := hcond
      have hp : parent i < i := parent_lt hi0
      have hpl : parent i < l.length := lt_trans hp hil
      have vP : getE (swap l (parent i) i) (parent i) = getE l i :=
        getE_swap_fst (Nat.ne_of_lt hp) hpl
      have vI : getE (swap l (parent i) i) i = getE l (parent i) :=
        getE_swap_snd hil
      have vO : ∀ k, k ≠ parent i → k ≠ i → getE (swap l (parent i) i) k = getE l k :=
        fun k h1 h2 => getE_swap_other h1 h2
      refine ih (swap l (parent i) i) (parent i) (by omega)
        (by rw [swap_length]; exact hpl) ⟨?_, ?_⟩
      · intro c hc hc0 hcp
        rw [swap_length] at hc
        by_cases hci : c = i
        · subst hci
          rw [vP, vI]
          exact le_of_lt hlt
        · rw [vO c hcp hci]
          by_cases hpc : parent c = parent i
          · rw [hpc, vP]
            have h1 := hinv.1 c hc hc0 hci
            rw [hpc] at h1
            exact le_trans (le_of_lt hlt) h1
          · by_cases hpci : parent c = i
            · rw [hpci, vI]
              exact hinv.2 hi0 c hc hpci
            · rw [vO (parent c) hpc hpci]
              exact hinv.1 c hc hc0 hci
      · intro hp0 c hc hpc
        rw [swap_length] at hc
        have hpp : parent (parent i) < parent i := parent_lt hp0
        have vPP : getE (swap l (parent i) i) (parent (parent i)) = getE l (parent (parent i)) :=
          vO _ (Nat.ne_of_lt hpp) (by omega)
        have base : (getE l (parent (parent i))).score ≤ (getE l (parent i)).score :=
          hinv.1 (parent i) hpl hp0 (Nat.ne_of_lt hp)
        by_cases hci : c = i
        · subst hci
          rw [vPP, vI]
          exact base
        · have hc0 : 0 < c := by
            rcases Nat.eq_zero_or_pos c with h0 | h0
            · exfalso
              subst h0
              simp only [parent] at hpc hp0
              omega
            · exact h0
          have hcpi : c ≠ parent i := by
            intro heq
            subst heq
            have := parent_lt hp0
            omega
          rw [vO c hcpi hci, vPP]
          have h1 := hinv.1 c hc hc0 hci
          rw [hpc] at h1
          exact le_trans base h1
    · next hcond =>
      intro c hc hc0
      by_cases hci : c = i
      · subst hci
        rw [not_and] at hcond
        exact not_lt.mp (hcond hc0)
      · exact hinv.1 c hc hc0 hci

theorem heapifyDownF_heapProp : ∀ (fuel : Nat) (l : List ScoreEntry) (i : Nat),
    l.length - i < fuel → i < l.length → downInv l i → heapProp (heapifyDownF fuel l i) := by
  intro fuel
  induction fuel with
  | zero => intro l i h; omega
  | succ n ih =>
    intro l i hfuel hil hinv
    simp only [heapifyDownF]
    split
    · next hcond =>
      obtain ⟨him, hml, hpm, hmlt, hmle⟩ := minIndex_ne_self (Ne.symm hcond)
      have vI : getE (swap l i (minIndex l i)) i = getE l (minIndex l i) :=
        getE_swap_fst hcond hil
      have vM : getE (swap l i (minIndex l i)) (minIndex l i) = getE l i :=
        getE_swap_snd hml
      have vO : ∀ k, k ≠ i → k ≠ minIndex l i →
          getE (swap l i (minIndex l i)) k = getE l k :=
        fun k h1 h2 => getE_swap_other h1 h2
      refine ih (swap l i (minIndex l i)) (minIndex l i)
        (by rw [swap_length]; omega) (by rw [swap_length]; exact hml) ⟨?_, ?_⟩
      · intro c hc hc0 hpcm
        rw [swap_length] at hc
        by_cases hci : c = i
        · subst hci
          have hi0 : 0 < c := hc0
          have hppi : parent c < c := parent_lt hi0
          rw [vO (parent c) (Nat.ne_of_lt hppi) (by omega), vI]
          exact hinv.2 hi0 (minIndex l c) hml hpm
        · by_cases hcm : c = minIndex l i
          · subst hcm
            rw [hpm, vI, vM]
            exact le_of_lt hmlt
          · rw [vO c hci hcm]
            by_cases hpci : parent c = i
            · rw [hpci, vI]
              exact hmle c hc hpci
            · rw [vO (parent c) hpci hpcm]
              exact hinv.1 c hc hc0 hpci
      · intro hm0 c hc hpc
        rw [swap_length] at hc
        have hc0 : 0 < c := by
          rcases Nat.eq_zero_or_pos c with h0 | h0
          · exfalso
            subst h0
            simp only [parent] at hpc
            omega
          · exact h0
        have hmc : minIndex l i < c := by
          have := parent_lt hc0
          omega
        rw [hpm, vI, vO c (by omega) (by omega)]
        have h1 := hinv.1 c hc hc0 (by omega)
        rw [hpc] at h1
        exact h1
    · next hcond =>
      have hmi : minIndex l i = i := by omega
      have hexit := minIndex_eq_self hmi
      intro c hc hc0
      by_cases hpci : parent c = i
      · rcases child_of_parent hc0 hpci with hcl | hcr
        · subst hcl
          rw [parent_leftChild]
          exact hexit.1 hc
        · subst hcr
          rw [parent_rightChild]
          exact hexit.2 hc
      · exact hinv.1 c hc hc0 hpci

theorem heapifyUp_heapProp {l : List ScoreEntry} {i : Nat} (hi : i < l.length)
    (h : upInv l i) : heapProp (heapifyUp l i) := by
  rw [← heapifyUpF_eq (i + 1) l i (by omega)]
  exact heapifyUpF_heapProp (i + 1) l i (by omega) hi h

theorem heapifyDown_heapProp {l : List ScoreEntry} {i : Nat} (hi : i < l.length)
    (h : downInv l i) : heapProp (heapifyDown l i) := by
  rw [← heapifyDownF_eq (l.length + 1) l i (by omega)]
  exact heapifyDownF_heapProp (l.length + 1) l i (by omega) hi h

end MinHeap

theorem heapProp_zero_le {l : List ScoreEntry} (h : heapProp l) :
    ∀ c, c < l.length → (getE l 0).score ≤ (getE l c).score := by
  intro c
  induction c using Nat.strong_induction_on with
  | _ c ih =>
    intro hc
    rcases Nat.eq_zero_or_pos c with rfl | hc0
    · exact le_refl _
    · exact le_trans
        (ih (MinHeap.parent c) (MinHeap.parent_lt hc0)
          (lt_trans (MinHeap.parent_lt hc0) hc))
        (h c hc hc0)

theorem heapProp_zero_min {l : List ScoreEntry} (h : heapProp l) :
    ∀ y ∈ l, (getE l 0).score ≤ y.score := by
  intro y hy
  obtain ⟨i, hi, rfl⟩ := exists_getE_of_mem hy
  exact heapProp_zero_le h i hi

namespace MinHeap

theorem insert_lt_eq {s : MinHeap} {e : ScoreEntry} (h : s.heap.length < s.maxSize) :
    s.insert e = { s with heap := heapifyUp (s.heap ++ [e]) s.heap.length } := by
  simp only [insert, if_pos h, List.length_append, List.length_singleton,
    Nat.add_sub_cancel]

theorem insert_full_gt {s : MinHeap} {e : ScoreEntry}
    (h1 : ¬ s.heap.length < s.maxSize) (h2 : (getE s.heap 0).score < e.score) :
    s.insert e = { s with heap := heapifyDown (s.heap.set 0 e) 0 } := by
  simp only [insert, if_neg h1, if_pos h2]

theorem insert_full_le {s : MinHeap} {e : ScoreEntry}
    (h1 : ¬ s.heap.length < s.maxSize) (h2 : ¬ (getE s.heap 0).score < e.score) :
    s.insert e = s := by
  simp only [insert, if_neg h1, if_neg h2]

theorem insert_maxSize (s : MinHeap) (e : ScoreEntry) :
    (s.insert e).maxSize = s.maxSize := by
  unfold insert
  split_ifs <;> rfl

theorem insert_length_lt {s : MinHeap} {e : ScoreEntry}
    (h : s.heap.length < s.maxSize) :
    (s.insert e).heap.length = s.heap.length + 1 := by
  rw [insert_lt_eq h]
  show (heapifyUp (s.heap ++ [e]) s.heap.length).length = s.heap.length + 1
  rw [heapifyUp_length]
  simp

theorem insert_length_ge {s : MinHeap} {e : ScoreEntry}
    (h : ¬ s.heap.length < s.maxSize) :
    (s.insert e).heap.length = s.heap.length := by
  unfold insert
  rw [if_neg h]
  split_ifs with h2
  · show (heapifyDown (s.heap.set 0 e) 0).length = s.heap.length
    rw [heapifyDown_length, List.length_set]
  · rfl

theorem insert_length_le {s : MinHeap} {e : ScoreEntry}
    (h : s.heap.length ≤ s.maxSize) :
    (s.insert e).heap.length ≤ s.maxSize := by
  by_cases hlt : s.heap.length < s.maxSize
  · rw [insert_length_lt hlt]; omega
  · rw [insert_length_ge hlt]; omega

theorem insert_coe_lt {s : MinHeap} {e : ScoreEntry}
    (h : s.heap.length < s.maxSize) :
    ((s.insert e).heap : Multiset ScoreEntry) = (s.heap : Multiset ScoreEntry) + {e} := by
  rw [insert_lt_eq h]
  show ((heapifyUp (s.heap ++ [e]) s.heap.length : List ScoreEntry) : Multiset ScoreEntry)
    = (s.heap : Multiset ScoreEntry) + {e}
  rw [← Multiset.coe_singleton e, Multiset.coe_add]
  exact Multiset.coe_eq_coe.mpr (heapifyUp_perm (by simp))

theorem insert_coe_full_gt {s : MinHeap} {e : ScoreEntry}
    (h1 : ¬ s.heap.length < s.maxSize) (h0 : 0 < s.heap.length)
    (h2 : (getE s.heap 0).score < e.score) :
    ((s.insert e).heap : Multiset ScoreEntry) + {getE s.heap 0}
      = (s.heap : Multiset ScoreEntry) + {e} := by
  rw [insert_full_gt h1 h2]
  show ((heapifyDown (s.heap.set 0 e) 0 : List ScoreEntry) : Multiset ScoreEntry)
      + {getE s.heap 0} = (s.heap : Multiset ScoreEntry) + {e}
  rw [← Multiset.coe_singleton e, ← Multiset.coe_singleton (getE s.heap 0),
    Multiset.coe_add, Multiset.coe_add]
  apply Multiset.coe_eq_coe.mpr
  exact ((heapifyDown_perm _ _).append (List.Perm.refl _)).trans
    (set_concat_perm s.heap 0 e h0)

theorem insert_perm_full_gt {s : MinHeap} {e : ScoreEntry}
    (h1 : ¬ s.heap.length < s.maxSize) (h2 : (getE s.heap 0).score < e.score) :
    (s.insert e).heap.Perm (s.heap.set 0 e) := by
  rw [insert_full_gt h1 h2]
  exact heapifyDown_perm _ _

end MinHeap

theorem heapifyDown_nil (i : Nat) : MinHeap.heapifyDown [] i = [] := by
  rw [← MinHeap.heapifyDownF_eq 1 [] i (by simp)]
  simp only [MinHeap.heapifyDownF]
  split
  · next h =>
    exfalso
    apply h
    simp [MinHeap.minIndex, MinHeap.leftChild, MinHeap.rightChild]
  · rfl

/-- After pushing `e` at the end of a heap, the sift-up invariant holds at
the new leaf. -/
theorem upInv_push {l : List ScoreEntry} (e : ScoreEntry) (h : heapProp l) :
    upInv (l ++ [e]) l.length := by
  constructor
  · intro c hc hc0 hci
    have hcl : c < l.length := by
      simp only [List.length_append, List.length_singleton] at hc
      omega
    have hpcl : MinHeap.parent c < l.length :=
      lt_trans (MinHeap.parent_lt hc0) hcl
    rw [getE_append_left _ hcl, getE_append_left _ hpcl]
    exact h c hcl hc0
  · intro h0 c hc hpc
    exfalso
    simp only [List.length_append, List.length_singleton] at hc
    simp only [MinHeap.parent] at hpc
    omega

/-- After overwriting the root, the sift-down invariant holds at the root. -/
theorem downInv_setRoot {l : List ScoreEntry} (e : ScoreEntry) (h : heapProp l) :
    downInv (l.set 0 e) 0 := by
  constructor
  · intro c hc hc0 hpc
    rw [List.length_set] at hc
    rw [getE_set_ne _ _ (by omega : (0 : Nat) ≠ c), getE_set_ne _ _ (Ne.symm hpc)]
    exact h c hc hc0
  · intro h0
    exact absurd h0 (lt_irrefl 0)

/-- One insert step preserves the reachability invariant, extending the
history by the inserted entry. -/
theorem insert_good {C : Nat} {ins : List ScoreEntry} {s : MinHeap} (e : ScoreEntry)
    (hg : goodState C ins s) : goodState C (ins ++ [e]) (s.insert e) := by
  obtain ⟨hCap, hHeap, hLen, hLe, hDisc⟩ := hg
  have hcoeIns : ((ins ++ [e] : List ScoreEntry) : Multiset ScoreEntry)
      = (ins : Multiset ScoreEntry) + {e} := by
    rw [← Multiset.coe_singleton, ← Multiset.coe_add]
  by_cases hlt : s.heap.length < s.maxSize
  · -- under capacity: the heap is the whole history, nothing discarded yet
    have hinsLen : s.heap.length = ins.length := by omega
    have hEq : (s.heap : Multiset ScoreEntry) = (ins : Multiset ScoreEntry) := by
      apply Multiset.eq_of_le_of_card_le hLe
      rw [Multiset.coe_card, Multiset.coe_card]
      omega
    refine ⟨by rw [MinHeap.insert_maxSize]; exact hCap, ?_, ?_, ?_, ?_⟩
    · rw [MinHeap.insert_lt_eq hlt]
      exact MinHeap.heapifyUp_heapProp (by simp) (upInv_push e hHeap)
    · rw [MinHeap.insert_length_lt hlt]
      simp only [List.length_append, List.length_singleton]
      omega
    · rw [MinHeap.insert_coe_lt hlt, hEq, hcoeIns]
    · intro x hx y hy
      exfalso
      have hzero : ((ins ++ [e] : List ScoreEntry) : Multiset ScoreEntry)
          - ((s.insert e).heap : Multiset ScoreEntry) = 0 := by
        rw [MinHeap.insert_coe_lt hlt, hEq, hcoeIns, tsub_self]
      rw [hzero] at hx
      exact absurd hx (Multiset.not_mem_zero x)
  · -- at capacity
    have hLenC : s.heap.length = C := by omega
    rcases Nat.eq_zero_or_pos C with hC0 | hC0
    · -- capacity zero: the heap is empty and stays empty
      have hnil : s.heap = [] := List.length_eq_zero.mp (by omega)
      have hinsheap : (s.insert e).heap = [] := by
        unfold MinHeap.insert
        rw [if_neg hlt]
        split_ifs with h2
        · show (MinHeap.heapifyDown (s.heap.set 0 e) 0 : List ScoreEntry) = []
          rw [hnil]
          rw [show ([] : List ScoreEntry).set 0 e = [] from rfl]
          exact heapifyDown_nil 0
        · rw [hnil]
      refine ⟨by rw [MinHeap.insert_maxSize]; exact hCap, ?_, ?_, ?_, ?_⟩
      · rw [hinsheap]
        intro c hc
        simp at hc
      · rw [hinsheap]
        simp only [List.length_nil, List.length_append, List.length_singleton]
        omega
      · rw [hinsheap]
        exact Multiset.zero_le _
      · intro x hx y hy
        rw [hinsheap] at hy
        simp at hy
    · -- positive capacity, heap full
      have h0 : 0 < s.heap.length := by omega
      have hroot_mem : getE s.heap 0 ∈ s.heap := getE_mem h0
      by_cases hgt : (getE s.heap 0).score < e.score
      · -- strictly larger score: the root is evicted
        have hcoe := MinHeap.insert_coe_full_gt hlt h0 hgt
        have hmemIff : ∀ y, y ∈ (s.insert e).heap ↔ y ∈ s.heap.set 0 e := by
          intro y
          exact (MinHeap.insert_perm_full_gt hlt hgt).mem_iff
        refine ⟨by rw [MinHeap.insert_maxSize]; exact hCap, ?_, ?_, ?_, ?_⟩
        · rw [MinHeap.insert_full_gt hlt hgt]
          exact MinHeap.heapifyDown_heapProp (by rw [List.length_set]; exact h0)
            (downInv_setRoot e hHeap)
        · rw [MinHeap.insert_length_ge hlt]
          simp only [List.length_append, List.length_singleton]
          omega
        · have step1 : ((s.insert e).heap : Multiset ScoreEntry)
              ≤ ((s.insert e).heap : Multiset ScoreEntry) + {getE s.heap 0} :=
            self_le_add_right _ _
          rw [hcoe] at step1
          rw [hcoeIns]
          exact le_trans step1 (add_le_add_right hLe _)
        · intro x hx y hy
          have hD : ((ins ++ [e] : List ScoreEntry) : Multiset ScoreEntry)
              - ((s.insert e).heap : Multiset ScoreEntry)
              = ((ins : Multiset ScoreEntry) - (s.heap : Multiset ScoreEntry))
                + {getE s.heap 0} := by
            have key : (((ins : Multiset ScoreEntry) - (s.heap : Multiset ScoreEntry))
                + {getE s.heap 0}) + ((s.insert e).heap : Multiset ScoreEntry)
                = ((ins ++ [e] : List ScoreEntry) : Multiset ScoreEntry) := by
              rw [hcoeIns, add_assoc,
                add_comm ({getE s.heap 0} : Multiset ScoreEntry) _, hcoe,
                ← add_assoc, tsub_add_cancel_of_le hLe]
            exact (eq_tsub_of_add_eq key).symm
          rw [hD] at hx
          have hy2 : y ∈ s.heap ∨ y = e :=
            List.mem_or_eq_of_mem_set ((hmemIff y).mp hy)
          rcases Multiset.mem_add.mp hx with hx1 | hx2
          · rcases hy2 with hy3 | rfl
            · exact hDisc x hx1 y hy3
            · exact le_of_lt (lt_of_le_of_lt (hDisc x hx1 _ hroot_mem) hgt)
          · have hxr : x = getE s.heap 0 := Multiset.mem_singleton.mp hx2
            subst hxr
            rcases hy2 with hy3 | rfl
            · exact heapProp_zero_min hHeap y hy3
            · exact le_of_lt hgt
      · -- discarded: the state is unchanged
        have hins : s.insert e = s := MinHeap.insert_full_le hlt hgt
        refine ⟨by rw [hins]; exact hCap, by rw [hins]; exact hHeap, ?_, ?_, ?_⟩
        · rw [hins]
          simp only [List.length_append, List.length_singleton]
          omega
        · rw [hins, hcoeIns]
          exact le_trans hLe (self_le_add_right _ _)
        · intro x hx y hy
          rw [hins] at hx hy
          have hD : ((ins ++ [e] : List ScoreEntry) : Multiset ScoreEntry)
              - (s.heap : Multiset ScoreEntry)
              = ((ins : Multiset ScoreEntry) - (s.heap : Multiset ScoreEntry))
                + ({e} : Multiset ScoreEntry) := by
            have key : (((ins : Multiset ScoreEntry) - (s.heap : Multiset ScoreEntry))
                + ({e} : Multiset ScoreEntry)) + (s.heap : Multiset ScoreEntry)
                = ((ins ++ [e] : List ScoreEntry) : Multiset ScoreEntry) := by
              rw [hcoeIns, add_assoc, add_comm ({e} : Multiset ScoreEntry) _,
                ← add_assoc, tsub_add_cancel_of_le hLe]
            exact (eq_tsub_of_add_eq key).symm
          rw [hD] at hx
          rcases Multiset.mem_add.mp hx with hx1 | hx2
          · exact hDisc x hx1 y hy
          · have hxe : x = e := Multiset.mem_singleton.mp hx2
            subst hxe
            exact le_trans (not_lt.mp hgt) (heapProp_zero_min hHeap y hy)

theorem insertList_good_aux : ∀ (l ins : List ScoreEntry) (s : MinHeap) (C : Nat),
    goodState C ins s → goodState C (ins ++ l) (insertList s l) := by
  intro l
  induction l with
  | nil =>
    intro ins s C h
    simpa [insertList] using h
  | cons e t ih =>
    intro ins s C h
    have h2 := ih (ins ++ [e]) (s.insert e) C (insert_good e h)
    rw [show (ins ++ [e]) ++ t = ins ++ e :: t by simp] at h2
    simpa [insertList] using h2

theorem insertList_good (C : Nat) (l : List ScoreEntry) :
    goodState C l (insertList (MinHeap.make C) l) := by
  have base : goodState C [] (MinHeap.make C) := by
    refine ⟨rfl, ?_, by simp [MinHeap.make], le_refl _, ?_⟩
    · intro c hc
      simp [MinHeap.make] at hc
    · intro x hx y hy
      simp [MinHeap.make] at hy
  simpa using insertList_good_aux l [] (MinHeap.make C) C base

theorem insDescBy_perm {α : Type} (key : α → Int) (e : α) (l : List α) :
    (insDescBy key e l).Perm (e :: l) := by
  induction l with
  | nil => exact List.Perm.refl _
  | cons x xs ih =>
    simp only [insDescBy]
    split
    · exact (ih.cons x).trans (List.Perm.swap e x xs)
    · exact List.Perm.refl _

theorem sortDescBy_perm {α : Type} (key : α → Int) (l : List α) :
    (sortDescBy key l).Perm l := by
  induction l with
  | nil => exact List.Perm.refl _
  | cons x xs ih =>
    show (insDescBy key x (sortDescBy key xs)).Perm (x :: xs)
    exact (insDescBy_perm key x _).trans (ih.cons x)

theorem insDescBy_sorted {α : Type} (key : α → Int) (e : α) {l : List α}
    (h : List.Pairwise (fun a b => key b ≤ key a) l) :
    List.Pairwise (fun a b => key b ≤ key a) (insDescBy key e l) := by
  induction l with
  | nil => simp [insDescBy]
  | cons x xs ih =>
    rcases List.pairwise_cons.mp h with ⟨hx, hxs⟩
    simp only [insDescBy]
    split
    · next hlt =>
      apply List.pairwise_cons.mpr
      refine ⟨?_, ih hxs⟩
      intro b hb
      rcases List.mem_cons.mp ((insDescBy_perm key e xs).mem_iff.mp hb) with rfl | hb2
      · exact le_of_lt hlt
      · exact hx b hb2
    · next hge =>
      apply List.pairwise_cons.mpr
      refine ⟨?_, h⟩
      intro b hb
      rcases List.mem_cons.mp hb with rfl | hb2
      · exact not_lt.mp hge
      · exact le_trans (hx b hb2) (not_lt.mp hge)

theorem sortDescBy_sorted {α : Type} (key : α → Int) (l : List α) :
    List.Pairwise (fun a b => key b ≤ key a) (sortDescBy key l) := by
  induction l with
  | nil => simp [sortDescBy]
  | cons x xs ih => exact insDescBy_sorted key x ih

theorem sorted_desc_unique {l1 l2 : List Int} (hp : l1.Perm l2)
    (h1 : List.Pairwise (fun a b : Int => b ≤ a) l1)
    (h2 : List.Pairwise (fun a b : Int => b ≤ a) l2) : l1 = l2 :=
  List.eq_of_perm_of_sorted hp h1 h2

/-- Main retention lemma: for any state satisfying the reachability invariant,
the sorted scores of the heap are exactly the first `capacity` entries of the
descending sort of all scores ever inserted. -/
theorem retention_take {C : Nat} {ins : List ScoreEntry} {s : MinHeap}
    (hg : goodState C ins s) :
    (sortDesc s.heap).map ScoreEntry.score
      = (sortIntDesc (ins.map ScoreEntry.score)).take C := by
  obtain ⟨hCap, hHeap, hLen, hLe, hDisc⟩ := hg
  set X : List Int := (sortDesc s.heap).map ScoreEntry.score with hXdef
  set dl : List ScoreEntry :=
    ((ins : Multiset ScoreEntry) - (s.heap : Multiset ScoreEntry)).toList with hdldef
  set Z : List Int := sortIntDesc (dl.map ScoreEntry.score) with hZdef
  have hXsorted : List.Pairwise (fun a b : Int => b ≤ a) X :=
    List.Pairwise.map ScoreEntry.score (fun a b h => h)
      (sortDescBy_sorted ScoreEntry.score s.heap)
  have hZsorted : List.Pairwise (fun a b : Int => b ≤ a) Z :=
    sortDescBy_sorted (fun x => x) (dl.map ScoreEntry.score)
  have hcoe : ((sortIntDesc (ins.map ScoreEntry.score) : List Int) : Multiset Int)
      = ((X ++ Z : List Int) : Multiset Int) := by
    have e1 : ((sortIntDesc (ins.map ScoreEntry.score) : List Int) : Multiset Int)
        = ((ins.map ScoreEntry.score : List Int) : Multiset Int) :=
      Multiset.coe_eq_coe.mpr (sortDescBy_perm _ _)
    have e2 : ((X : List Int) : Multiset Int)
        = Multiset.map ScoreEntry.score (s.heap : Multiset ScoreEntry) := by
      rw [hXdef, ← Multiset.map_coe]
      congr 1
      exact Multiset.coe_eq_coe.mpr (sortDescBy_perm ScoreEntry.score s.heap)
    have e3 : ((Z : List Int) : Multiset Int)
        = Multiset.map ScoreEntry.score
          ((ins : Multiset ScoreEntry) - (s.heap : Multiset ScoreEntry)) := by
      rw [hZdef]
      have z1 : ((sortIntDesc (dl.map ScoreEntry.score) : List Int) : Multiset Int)
          = ((dl.map ScoreEntry.score : List Int) : Multiset Int) :=
        Multiset.coe_eq_coe.mpr (sortDescBy_perm _ _)
      rw [z1, ← Multiset.map_coe, hdldef, Multiset.coe_toList]
    rw [e1, ← Multiset.coe_add, e2, e3, ← Multiset.map_add,
      add_tsub_cancel_of_le hLe, Multiset.map_coe]
  have hcross : ∀ a ∈ X, ∀ b ∈ Z, b ≤ a := by
    intro a ha b hb
    obtain ⟨y, hy1, rfl⟩ := List.mem_map.mp ha
    have hy2 : y ∈ s.heap := (sortDescBy_perm ScoreEntry.score s.heap).mem_iff.mp hy1
    have hb1 : b ∈ dl.map ScoreEntry.score :=
      (sortDescBy_perm (fun x => x) _).mem_iff.mp hb
    obtain ⟨x, hx1, rfl⟩ := List.mem_map.mp hb1
    have hx2 : x ∈ (ins : Multiset ScoreEntry) - (s.heap : Multiset ScoreEntry) :=
      Multiset.mem_toList.mp hx1
    exact hDisc x hx2 y hy2
  have heq : sortIntDesc (ins.map ScoreEntry.score) = X ++ Z :=
    sorted_desc_unique (Multiset.coe_eq_coe.mp hcoe)
      (sortDescBy_sorted _ _)
      (List.pairwise_append.mpr ⟨hXsorted, hZsorted, hcross⟩)
  have hXlen : X.length = min C ins.length := by
    rw [hXdef, List.length_map]
    simp only [sortDesc]
    rw [(sortDescBy_perm ScoreEntry.score s.heap).length_eq, hLen]
  rw [heq]
  rcases le_or_lt ins.length C with hc | hc
  · -- everything fits: nothing was discarded
    have hEq : (s.heap : Multiset ScoreEntry) = (ins : Multiset ScoreEntry) :=
      Multiset.eq_of_le_of_card_le hLe
        (by rw [Multiset.coe_card, Multiset.coe_card]; omega)
    have hZnil : Z = [] := by
      rw [hZdef, hdldef, hEq, tsub_self, Multiset.toList_zero]
      rfl
    rw [hZnil, List.append_nil]
    exact (List.take_of_length_le (by omega)).symm
  · -- overflow: the heap holds exactly the top C
    have hXC : X.length = C := by omega
    rw [List.take_append_eq_append_take, ← hXC, List.take_length, Nat.sub_self,
      List.take_zero, List.append_nil]

namespace MinHeap

theorem insert_eq_insertF (s : MinHeap) (e : ScoreEntry) : s.insert e = s.insertF e := by
  unfold insert insertF
  split_ifs with h1 h2
  · congr 1
    simp only [List.length_append, List.length_singleton, Nat.add_sub_cancel]
    exact (heapifyUpF_eq (s.heap.length + 1) _ _ (by omega)).symm
  · congr 1
    exact (heapifyDownF_eq (s.heap.length + 1) _ _
      (by rw [List.length_set]; omega)).symm
  · rfl

end MinHeap

theorem insertList_eq_F : ∀ (l : List ScoreEntry) (s : MinHeap),
    insertList s l = l.foldl MinHeap.insertF s := by
  intro l
  induction l with
  | nil => intro s; rfl
  | cons e t ih =>
    intro s
    show insertList (s.insert e) t = List.foldl MinHeap.insertF (s.insertF e) t
    rw [← MinHeap.insert_eq_insertF, ih]

theorem insertList_maxSize : ∀ (l : List ScoreEntry) (s : MinHeap),
    (insertList s l).maxSize = s.maxSize := by
  intro l
  induction l with
  | nil => intro s; rfl
  | cons e t ih =>
    intro s
    show (insertList (s.insert e) t).maxSize = s.maxSize
    rw [ih, MinHeap.insert_maxSize]

theorem insertList_under : ∀ (l : List ScoreEntry) (s : MinHeap),
    s.heap.length + l.length ≤ s.maxSize →
    ((insertList s l).heap : Multiset ScoreEntry)
      = (s.heap : Multiset ScoreEntry) + (l : Multiset ScoreEntry) := by
  intro l
  induction l with
  | nil =>
    intro s h
    show ((s.heap : List ScoreEntry) : Multiset ScoreEntry)
      = (s.heap : Multiset ScoreEntry) + (([] : List ScoreEntry) : Multiset ScoreEntry)
    rw [Multiset.coe_nil, add_zero]
  | cons e t ih =>
    intro s h
    simp only [List.length_cons] at h
    have hlt : s.heap.length < s.maxSize := by omega
    show ((insertList (s.insert e) t).heap : Multiset ScoreEntry)
      = (s.heap : Multiset ScoreEntry) + ((e :: t : List ScoreEntry) : Multiset ScoreEntry)
    rw [ih (s.insert e)
      (by rw [MinHeap.insert_length_lt hlt, MinHeap.insert_maxSize]; omega)]
    rw [MinHeap.insert_coe_lt hlt, add_assoc, Multiset.singleton_add,
      Multiset.cons_coe]

theorem runOps_maxSize : ∀ (ops : List Op) (s : MinHeap),
    (runOps s ops).maxSize = s.maxSize := by
  intro ops
  induction ops with
  | nil => intro s; rfl
  | cons o t ih =>
    intro s
    show (runOps (applyOp s o) t).maxSize = s.maxSize
    rw [ih]
    cases o with
    | ins e => exact MinHeap.insert_maxSize s e
    | clr => rfl

theorem runOps_length_le : ∀ (ops : List Op) (s : MinHeap),
    s.heap.length ≤ s.maxSize →
    (runOps s ops).heap.length ≤ (runOps s ops).maxSize := by
  intro ops
  induction ops with
  | nil => intro s h; exact h
  | cons o t ih =>
    intro s h
    show (runOps (applyOp s o) t).heap.length ≤ (runOps (applyOp s o) t).maxSize
    apply ih
    cases o with
    | ins e =>
      show (s.insert e).heap.length ≤ (s.insert e).maxSize
      rw [MinHeap.insert_maxSize]
      exact MinHeap.insert_length_le h
    | clr =>
      show ([] : List ScoreEntry).length ≤ s.maxSize
      simp

/-- C1 (counterexample): with capacity 2, inserting A:1, B:1, C:2 in order
makes `getSortedScores` return C:2 then B:1 — the earlier-inserted equal-score
entry A:1 is evicted and the later-inserted B:1 retained, contradicting the
claim that at the capacity boundary earlier-inserted entries are retained
among equal scores. -/
theorem C1_top_retention_counterexample :
    MinHeap.getSortedScores (insertList (MinHeap.make 2)
      [⟨"A", 1⟩, ⟨"B", 1⟩, ⟨"C", 2⟩])
      = [⟨"C", 2⟩, ⟨"B", 1⟩]
    ∧ (⟨"A", 1⟩ : ScoreEntry) ∉ MinHeap.getSortedScores (insertList (MinHeap.make 2)
      [⟨"A", 1⟩, ⟨"B", 1⟩, ⟨"C", 2⟩])
    ∧ (⟨"B", 1⟩ : ScoreEntry) ∈ MinHeap.getSortedScores (insertList (MinHeap.make 2)
      [⟨"A", 1⟩, ⟨"B", 1⟩, ⟨"C", 2⟩]) := by
  rw [insertList_eq_F]
  decide

/-- C1 (amended): for every capacity C > 0 and insertion sequence l,
`getSortedScores` returns `min C l.length` entries sorted by score
descending whose score sequence is exactly the first C elements of the
descending sort of all inserted scores (the top scores by value); when
`l.length ≤ C` the returned entries are exactly the inserted ones.  Which
same-score entry survives at the eviction boundary is decided by the heap
layout, not by insertion order. -/
theorem C1_top_retention_amended (C : Nat) (l : List ScoreEntry) (hC : 0 < C) :
    (MinHeap.getSortedScores (insertList (MinHeap.make C) l)).map ScoreEntry.score
      = (sortIntDesc (l.map ScoreEntry.score)).take C
    ∧ (MinHeap.getSortedScores (insertList (MinHeap.make C) l)).length
      = min C l.length
    ∧ (l.length ≤ C →
      ((MinHeap.getSortedScores (insertList (MinHeap.make C) l) : List ScoreEntry)
        : Multiset ScoreEntry) = (l : Multiset ScoreEntry)) := by
  refine ⟨retention_take (insertList_good C l), ?_, ?_⟩
  · obtain ⟨hCap, hHeap, hLen, hLe, hDisc⟩ := insertList_good C l
    show (sortDesc (insertList (MinHeap.make C) l).heap).length = min C l.length
    simp only [sortDesc]
    rw [(sortDescBy_perm _ _).length_eq, hLen]
  · intro hlc
    obtain ⟨hCap, hHeap, hLen, hLe, hDisc⟩ := insertList_good C l
    have hEq : ((insertList (MinHeap.make C) l).heap : Multiset ScoreEntry)
        = (l : Multiset ScoreEntry) :=
      Multiset.eq_of_le_of_card_le hLe
        (by rw [Multiset.coe_card, Multiset.coe_card]; omega)
    show ((sortDesc (insertList (MinHeap.make C) l).heap : List ScoreEntry)
      : Multiset ScoreEntry) = (l : Multiset ScoreEntry)
    rw [← hEq]
    exact Multiset.coe_eq_coe.mpr (sortDescBy_perm _ _)

/-- Witness for C1 (amended) at capacity 2 with inserts A:1, B:1, C:2. -/
theorem C1_top_retention_amended_witness :
    (MinHeap.getSortedScores (insertList (MinHeap.make 2)
      [⟨"A", 1⟩, ⟨"B", 1⟩, ⟨"C", 2⟩])).map ScoreEntry.score
      = (sortIntDesc ([(⟨"A", 1⟩ : ScoreEntry), ⟨"B", 1⟩,
          ⟨"C", 2⟩].map ScoreEntry.score)).take 2
    ∧ (MinHeap.getSortedScores (insertList (MinHeap.make 2)
      [⟨"A", 1⟩, ⟨"B", 1⟩, ⟨"C", 2⟩])).length
      = min 2 ([(⟨"A", 1⟩ : ScoreEntry), ⟨"B", 1⟩, ⟨"C", 2⟩].length)
    ∧ (([(⟨"A", 1⟩ : ScoreEntry), ⟨"B", 1⟩, ⟨"C", 2⟩].length ≤ 2) →
      ((MinHeap.getSortedScores (insertList (MinHeap.make 2)
        [⟨"A", 1⟩, ⟨"B", 1⟩, ⟨"C", 2⟩]) : List ScoreEntry) : Multiset ScoreEntry)
        = ([(⟨"A", 1⟩ : ScoreEntry), ⟨"B", 1⟩, ⟨"C", 2⟩] : Multiset ScoreEntry)) :=
  C1_top_retention_amended 2 [⟨"A", 1⟩, ⟨"B", 1⟩, ⟨"C", 2⟩] (by decide)

/-- C2: after any insertion sequence into an initially empty store of
capacity C > 0, the entries array is a binary min-heap: each position's score
is at most the score of its left child `2i+1` and right child `2i+2` whenever
they exist. -/
theorem C2_heap_property (C : Nat) (l : List ScoreEntry) (hC : 0 < C) (i : Nat) :
    (2 * i + 1 < (insertList (MinHeap.make C) l).heap.length →
      (getE (insertList (MinHeap.make C) l).heap i).score
        ≤ (getE (insertList (MinHeap.make C) l).heap (2 * i + 1)).score)
    ∧ (2 * i + 2 < (insertList (MinHeap.make C) l).heap.length →
      (getE (insertList (MinHeap.make C) l).heap i).score
        ≤ (getE (insertList (MinHeap.make C) l).heap (2 * i + 2)).score) := by
  have hHeap := (insertList_good C l).2.1
  constructor
  · intro h
    have h1 := hHeap (2 * i + 1) h (by omega)
    rwa [show MinHeap.parent (2 * i + 1) = i by simp only [MinHeap.parent]; omega] at h1
  · intro h
    have h1 := hHeap (2 * i + 2) h (by omega)
    rwa [show MinHeap.parent (2 * i + 2) = i by simp only [MinHeap.parent]; omega] at h1

/-- Witness for C2 at capacity 2 with inserts A:3, B:1, C:2 and root 0. -/
theorem C2_heap_property_witness :
    (2 * 0 + 1 < (insertList (MinHeap.make 2) [⟨"A", 3⟩, ⟨"B", 1⟩, ⟨"C", 2⟩]).heap.length →
      (getE (insertList (MinHeap.make 2) [⟨"A", 3⟩, ⟨"B", 1⟩, ⟨"C", 2⟩]).heap 0).score
        ≤ (getE (insertList (MinHeap.make 2)
            [⟨"A", 3⟩, ⟨"B", 1⟩, ⟨"C", 2⟩]).heap (2 * 0 + 1)).score)
    ∧ (2 * 0 + 2 < (insertList (MinHeap.make 2)
          [⟨"A", 3⟩, ⟨"B", 1⟩, ⟨"C", 2⟩]).heap.length →
      (getE (insertList (MinHeap.make 2) [⟨"A", 3⟩, ⟨"B", 1⟩, ⟨"C", 2⟩]).heap 0).score
        ≤ (getE (insertList (MinHeap.make 2)
            [⟨"A", 3⟩, ⟨"B", 1⟩, ⟨"C", 2⟩]).heap (2 * 0 + 2)).score) :=
  C2_heap_property 2 [⟨"A", 3⟩, ⟨"B", 1⟩, ⟨"C", 2⟩] (by decide) 0

/-- C3: the entries array of a store of capacity C > 0 never exceeds C
elements under any sequence of inserts and clears from the empty store, and a
single insert on any store within its bound stays within the bound. -/
theorem C3_size_bound (C : Nat) (hC : 0 < C) (ops : List Op) (s : MinHeap)
    (e : ScoreEntry) :
    (runOps (MinHeap.make C) ops).heap.length ≤ C
    ∧ (s.heap.length ≤ s.maxSize → (s.insert e).heap.length ≤ s.maxSize) := by
  constructor
  · have h1 := runOps_length_le ops (MinHeap.make C) (by simp [MinHeap.make])
    rwa [runOps_maxSize] at h1
  · exact fun h => MinHeap.insert_length_le h

/-- Witness for C3 at capacity 1 with an insert-insert-clear-insert run. -/
theorem C3_size_bound_witness :
    (runOps (MinHeap.make 1)
      [Op.ins ⟨"A", 5⟩, Op.ins ⟨"B", 7⟩, Op.clr, Op.ins ⟨"C", 2⟩]).heap.length ≤ 1
    ∧ ((MinHeap.mk [⟨"A", 5⟩] 1).heap.length ≤ (MinHeap.mk [⟨"A", 5⟩] 1).maxSize →
      ((MinHeap.mk [⟨"A", 5⟩] 1).insert ⟨"D", 9⟩).heap.length
        ≤ (MinHeap.mk [⟨"A", 5⟩] 1).maxSize) :=
  C3_size_bound 1 (by decide) [Op.ins ⟨"A", 5⟩, Op.ins ⟨"B", 7⟩, Op.clr, Op.ins ⟨"C", 2⟩]
    (MinHeap.mk [⟨"A", 5⟩] 1) ⟨"D", 9⟩

/-- C4: at capacity, inserting an entry whose score is at most the current
root score leaves the store completely unchanged — the entry is discarded and
existing entries win ties. -/
theorem C4_tie_discard (s : MinHeap) (e : ScoreEntry)
    (h1 : s.heap.length = s.maxSize) (h2 : e.score ≤ (getE s.heap 0).score) :
    s.insert e = s :=
  MinHeap.insert_full_le (by omega) (not_lt.mpr h2)

/-- Witness for C4: a full one-slot store discards an equal-score insert. -/
theorem C4_tie_discard_witness :
    (MinHeap.mk [⟨"A", 5⟩] 1).insert ⟨"B", 5⟩ = MinHeap.mk [⟨"A", 5⟩] 1 :=
  C4_tie_discard (MinHeap.mk [⟨"A", 5⟩] 1) ⟨"B", 5⟩ (by decide) (by decide)

/-- C5: under capacity, insert adds exactly the new entry to the heap's
multiset and grows the size by one regardless of its score; at capacity with
a strictly larger score, insert replaces the root — a minimum-score entry —
keeping the size unchanged. -/
theorem C5_insert_effect (s : MinHeap) (e : ScoreEntry) :
    (s.heap.length < s.maxSize →
      ((s.insert e).heap : Multiset ScoreEntry)
        = (s.heap : Multiset ScoreEntry) + {e}
      ∧ (s.insert e).heap.length = s.heap.length + 1)
    ∧ (heapProp s.heap → s.heap.length = s.maxSize → 0 < s.maxSize →
      (getE s.heap 0).score < e.score →
      ((s.insert e).heap : Multiset ScoreEntry) + {getE s.heap 0}
        = (s.heap : Multiset ScoreEntry) + {e}
      ∧ (∀ y ∈ s.heap, (getE s.heap 0).score ≤ y.score)
      ∧ (s.insert e).heap.length = s.heap.length) := by
  constructor
  · intro h
    exact ⟨MinHeap.insert_coe_lt h, MinHeap.insert_length_lt h⟩
  · intro hHeap hfull hpos hgt
    exact ⟨MinHeap.insert_coe_full_gt (by omega) (by omega) hgt,
      heapProp_zero_min hHeap, MinHeap.insert_length_ge (by omega)⟩

/-- Witness for C5: an under-capacity insert and a root-replacing insert. -/
theorem C5_insert_effect_witness :
    ((((MinHeap.mk [⟨"A", 5⟩] 2).insert ⟨"B", 7⟩).heap : Multiset ScoreEntry)
        = ((MinHeap.mk [⟨"A", 5⟩] 2).heap : Multiset ScoreEntry) + {⟨"B", 7⟩}
      ∧ ((MinHeap.mk [⟨"A", 5⟩] 2).insert ⟨"B", 7⟩).heap.length
        = (MinHeap.mk [⟨"A", 5⟩] 2).heap.length + 1)
    ∧ ((((MinHeap.mk [⟨"A", 3⟩] 1).insert ⟨"B", 9⟩).heap : Multiset ScoreEntry)
          + {getE (MinHeap.mk [⟨"A", 3⟩] 1).heap 0}
        = ((MinHeap.mk [⟨"A", 3⟩] 1).heap : Multiset ScoreEntry) + {⟨"B", 9⟩})
    ∧ ((MinHeap.mk [⟨"A", 3⟩] 1).insert ⟨"B", 9⟩).heap.length
        = (MinHeap.mk [⟨"A", 3⟩] 1).heap.length :=
  ⟨(C5_insert_effect (MinHeap.mk [⟨"A", 5⟩] 2) ⟨"B", 7⟩).1 (by decide),
   ((C5_insert_effect (MinHeap.mk [⟨"A", 3⟩] 1) ⟨"B", 9⟩).2
     (by decide) (by decide) (by decide) (by decide)).1,
   ((C5_insert_effect (MinHeap.mk [⟨"A", 3⟩] 1) ⟨"B", 9⟩).2
     (by decide) (by decide) (by decide) (by decide)).2.2⟩

/-- C6: `getSortedScores` leaves the store state untouched (it sorts a spread
copy of the heap), and two consecutive calls with no intervening mutation
return equal sequences. -/
theorem C6_read_pure_idempotent (s : MinHeap) :
    (MinHeap.getSortedScoresOp s).2 = s
    ∧ (MinHeap.getSortedScoresOp ((MinHeap.getSortedScoresOp s).2)).1
      = (MinHeap.getSortedScoresOp s).1 :=
  ⟨rfl, rfl⟩

/-- C7: after clear the entry sequence is empty, the capacity is unchanged,
and any subsequent insertion sequence behaves exactly as on a freshly made
store of the same capacity. -/
theorem C7_clear_resets (s : MinHeap) (l : List ScoreEntry) :
    MinHeap.getSortedScores s.clear = []
    ∧ s.clear.maxSize = s.maxSize
    ∧ insertList s.clear l = insertList (MinHeap.make s.maxSize) l :=
  ⟨rfl, rfl, rfl⟩

/-- C10: both sift loops terminate within an explicit bound: `heapifyUp`
finishes within `i + 1` iterations because the cursor strictly decreases, and
`heapifyDown` within `length + 1` iterations because the cursor strictly
increases but stays below the length; the fuelled runs with those bounds
equal the unbounded functions. -/
theorem C10_heapify_terminates (l : List ScoreEntry) (i : Nat) :
    MinHeap.heapifyUpF (i + 1) l i = MinHeap.heapifyUp l i
    ∧ MinHeap.heapifyDownF (l.length + 1) l i = MinHeap.heapifyDown l i :=
  ⟨MinHeap.heapifyUpF_eq (i + 1) l i (by omega),
   MinHeap.heapifyDownF_eq (l.length + 1) l i (by omega)⟩

/-- C8: replaying the persisted sorted dump of any reachable store through
insert into a fresh empty store of the same capacity reproduces the same
multiset of entries, and hence the identical descending score sequence. -/
theorem C8_persist_replay (C : Nat) (ops : List Op) :
    ((MinHeap.getSortedScores (insertList (MinHeap.make C)
        (MinHeap.getSortedScores (runOps (MinHeap.make C) ops))) : List ScoreEntry)
      : Multiset ScoreEntry)
      = ((MinHeap.getSortedScores (runOps (MinHeap.make C) ops) : List ScoreEntry)
        : Multiset ScoreEntry)
    ∧ (MinHeap.getSortedScores (insertList (MinHeap.make C)
        (MinHeap.getSortedScores (runOps (MinHeap.make C) ops)))).map ScoreEntry.score
      = (MinHeap.getSortedScores (runOps (MinHeap.make C) ops)).map ScoreEntry.score := by
  have hlen : (runOps (MinHeap.make C) ops).heap.length ≤ C := by
    have h1 := runOps_length_le ops (MinHeap.make C) (by simp [MinHeap.make])
    rwa [runOps_maxSize] at h1
  have hgs_len : (MinHeap.getSortedScores (runOps (MinHeap.make C) ops)).length
      = (runOps (MinHeap.make C) ops).heap.length := by
    show (sortDesc (runOps (MinHeap.make C) ops).heap).length = _
    simp only [sortDesc]
    exact (sortDescBy_perm _ _).length_eq
  have hrep : ((insertList (MinHeap.make C)
      (MinHeap.getSortedScores (runOps (MinHeap.make C) ops))).heap
      : Multiset ScoreEntry)
      = ((MinHeap.getSortedScores (runOps (MinHeap.make C) ops) : List ScoreEntry)
        : Multiset ScoreEntry) := by
    have h2 := insertList_under (MinHeap.getSortedScores (runOps (MinHeap.make C) ops))
      (MinHeap.make C) (by
        show (0 : Nat) + (MinHeap.getSortedScores (runOps (MinHeap.make C) ops)).length
          ≤ C
        rw [hgs_len]
        omega)
    rw [h2]
    show ((([] : List ScoreEntry) : Multiset ScoreEntry) + _ : Multiset ScoreEntry) = _
    rw [Multiset.coe_nil, zero_add]
  have hcoe1 : ((MinHeap.getSortedScores (insertList (MinHeap.make C)
      (MinHeap.getSortedScores (runOps (MinHeap.make C) ops))) : List ScoreEntry)
      : Multiset ScoreEntry)
      = ((insertList (MinHeap.make C)
        (MinHeap.getSortedScores (runOps (MinHeap.make C) ops))).heap
        : Multiset ScoreEntry) :=
    Multiset.coe_eq_coe.mpr (sortDescBy_perm _ _)
  constructor
  · rw [hcoe1, hrep]
  · have hlistperm : (MinHeap.getSortedScores (insertList (MinHeap.make C)
        (MinHeap.getSortedScores (runOps (MinHeap.make C) ops)))).Perm
        (MinHeap.getSortedScores (runOps (MinHeap.make C) ops)) :=
      Multiset.coe_eq_coe.mp (by rw [hcoe1, hrep])
    exact sorted_desc_unique (hlistperm.map ScoreEntry.score)
      (List.Pairwise.map ScoreEntry.score (fun a b h => h)
        (sortDescBy_sorted ScoreEntry.score _))
      (List.Pairwise.map ScoreEntry.score (fun a b h => h)
        (sortDescBy_sorted ScoreEntry.score _))

/-- C9: on a fresh store of capacity 3, inserting A:10, B:20, C:5, D:15 makes
`getSortedScores` return exactly B:20, D:15, A:10 — C:5 is evicted when D:15
arrives at capacity. -/
theorem C9_concrete_scenario :
    MinHeap.getSortedScores (insertList (MinHeap.make 3)
      [⟨"A", 10⟩, ⟨"B", 20⟩, ⟨"C", 5⟩, ⟨"D", 15⟩])
      = [⟨"B", 20⟩, ⟨"D", 15⟩, ⟨"A", 10⟩] := by
  rw [insertList_eq_F]
  decide
